import Mathlib

/-!
Verification of the RAE agentic-memory storage core (rae-core-rust).

This file gives a shallow embedding of the two reference stores:
  - the tenant-partitioned in-memory record store
    (src/tmp_node1_sync/rae-core-rust/src/storage/in_memory.rs), and
  - the tenant-partitioned in-memory property graph
    (src/rae-core-rust/src/storage/graph.rs),
together with theorems about tenant isolation, update/delete semantics,
neighbor traversal, BFS shortest path, subgraph induction, pagination and
the access-tracking frame condition.

Modelling conventions:
  - Uuid values are modelled as Nat; tenant/agent identifiers as String.
  - chrono timestamps are modelled as Nat instants; Uuid::new_v4() and
    Utc::now() are environment inputs, passed as explicit parameters.
  - f32 fields (importance, edge weight) are carried as Rat; no modelled
    operation ever computes with or branches on them.
  - serde_json::Value is modelled by the inductive Json below; no modelled
    operation inspects such values.
  - HashMap String to per-tenant data is modelled as a total function from
    String defaulting to the empty collection; in the Rust code an absent
    tenant entry and an empty tenant entry are observationally identical.
  - The record store HashMap Uuid to MemoryRecord is modelled as an
    association list; HashMap insert/get/remove become replace-or-append,
    first lookup, and erase-first (keys are unique by construction, so the
    choice of first occurrence is immaterial).
  - A HashSet result (get_neighbors) is modelled as a Finset.
  - Locks and async are erased: every operation is a pure function of the
    store state, returning the new state where the Rust mutates in place.
-/

/-- Model of serde_json::Value: a tagged JSON value.  The storage core
carries such values (record metadata, node and edge properties) but never
inspects them. -/
inductive Json : Type where
  | null : Json
  | bool : Bool → Json
  | num : Rat → Json
  | str : String → Json
  | arr : List Json → Json
  | obj : List (String × Json) → Json

/-- MemoryLayer from src/rae-core-rust/src/types/enums.rs. -/
inductive MemoryLayer : Type where
  | Sensory | Working | Episodic | Semantic | Reflective
deriving DecidableEq, Repr

/-- MemoryRecord from src/tmp_node1_sync/rae-core-rust/src/traits/storage.rs.
Timestamps are Nat instants, importance (f32) is carried as Rat,
access_count (i32) as Int. -/
structure MemoryRecord : Type where
  id : Nat
  tenant_id : String
  agent_id : String
  content : String
  layer : MemoryLayer
  importance : Rat
  tags : List String
  metadata : List (String × Json)
  created_at : Nat
  updated_at : Nat
  expires_at : Option Nat
  last_accessed_at : Option Nat
  access_count : Int

/-- The state of InMemoryStorage: the HashMap from Uuid to MemoryRecord,
modelled as an association list keyed by the record identifier. -/
abbrev MemState : Type := List (Nat × MemoryRecord)

/-- HashMap::insert - replace the value at an existing key, otherwise
append a new entry. -/
def hmInsert (id : Nat) (r : MemoryRecord) (s : MemState) : MemState :=
  if (s.lookup id).isSome then
    s.map (fun p => if p.1 = id then (id, r) else p)
  else
    s ++ [(id, r)]

/-- store_memory from in_memory.rs.  The freshly generated Uuid and the
current instant are environment inputs, passed as the explicit parameters
id and now; the embedding field of the Rust signature is accepted and
ignored exactly as in the source.  Returns the new state and the id. -/
def store_memory (tenant_id agent_id content : String) (layer : MemoryLayer)
    (importance : Rat) (tags : List String) (metadata : List (String × Json))
    (_embedding : Option (List Rat)) (expires_at : Option Nat)
    (id now : Nat) (s : MemState) : MemState × Nat :=
  let record : MemoryRecord :=
    { id := id
      tenant_id := tenant_id
      agent_id := agent_id
      content := content
      layer := layer
      importance := importance
      tags := tags
      metadata := metadata
      created_at := now
      updated_at := now
      expires_at := expires_at
      last_accessed_at := none
      access_count := 0 }
  (hmInsert id record s, id)

/-- get_memory from in_memory.rs: look the id up; if found but owned by a
different tenant, report absent; otherwise return the (cloned) record. -/
def get_memory (memory_id : Nat) (tenant_id : String) (s : MemState) :
    Option MemoryRecord :=
  match s.lookup memory_id with
  | some r => if r.tenant_id ≠ tenant_id then none else some r
  | none => none

/-- Replace the record stored at the first entry with the given key. -/
def setFirst (id : Nat) (r : MemoryRecord) : MemState → MemState
  | [] => []
  | p :: s => if p.1 = id then (id, r) :: s else p :: setFirst id r s

/-- update_memory from in_memory.rs.  The Rust body ignores the updates
map (the parameter is named with a leading underscore in the source and
never read): when the record exists and belongs to the tenant it only
refreshes updated_at (to the environment instant now) and returns true;
otherwise it returns false and leaves the state unchanged. -/
def update_memory (memory_id : Nat) (tenant_id : String)
    (_updates : List (String × Json)) (now : Nat) (s : MemState) :
    MemState × Bool :=
  match s.lookup memory_id with
  | some r =>
      if r.tenant_id = tenant_id then
        (setFirst memory_id { r with updated_at := now } s, true)
      else (s, false)
  | none => (s, false)

/-- delete_memory from in_memory.rs: remove the entry only when it exists
and belongs to the tenant. -/
def delete_memory (memory_id : Nat) (tenant_id : String) (s : MemState) :
    MemState × Bool :=
  match s.lookup memory_id with
  | some r =>
      if r.tenant_id = tenant_id then
        (s.eraseP (fun p => p.1 = memory_id), true)
      else (s, false)
  | none => (s, false)

/-- The values() view of the record map. -/
def memValues (s : MemState) : List MemoryRecord := s.map Prod.snd

/-- The agent filter of list_memories / count_memories:
agent_id.map_or(true, a equality). -/
def agentOk (agent_id : Option String) (m : MemoryRecord) : Bool :=
  match agent_id with
  | some a => m.agent_id = a
  | none => true

/-- The layer filter of list_memories / count_memories. -/
def layerOk (layer : Option MemoryLayer) (m : MemoryRecord) : Bool :=
  match layer with
  | some l => m.layer = l
  | none => true

/-- list_memories from in_memory.rs: filter by tenant, then optionally by
agent and layer (the tags parameter is accepted and ignored in the
source), then skip offset records and take at most limit. -/
def list_memories (tenant_id : String) (agent_id : Option String)
    (layer : Option MemoryLayer) (_tags : Option (List String))
    (limit offset : Nat) (s : MemState) : List MemoryRecord :=
  ((((memValues s).filter (fun m => m.tenant_id = tenant_id)).filter
      (agentOk agent_id)).filter (layerOk layer)).drop offset |>.take limit

/-- count_memories from in_memory.rs: same filters as list_memories,
without pagination. -/
def count_memories (tenant_id : String) (agent_id : Option String)
    (layer : Option MemoryLayer) (s : MemState) : Nat :=
  ((((memValues s).filter (fun m => m.tenant_id = tenant_id)).filter
      (agentOk agent_id)).filter (layerOk layer)).length

/-- save_embedding from in_memory.rs: the reference store accepts and
discards the embedding, returning true and leaving the state unchanged. -/
def save_embedding (_memory_id : Nat) (_model_name : String)
    (_embedding : List Rat) (_metadata : Option (List (String × Json)))
    (s : MemState) : MemState × Bool :=
  (s, true)

/-- Node from src/rae-core-rust/src/storage/graph.rs. -/
structure Node : Type where
  id : Nat
  node_type : String
  properties : List (String × Json)

/-- Edge from src/rae-core-rust/src/storage/graph.rs; the f32 weight is
carried as Rat and never inspected. -/
structure Edge : Type where
  source_id : Nat
  target_id : Nat
  edge_type : String
  weight : Rat
  properties : List (String × Json)

/-- The state of InMemoryGraphStore: tenant_id to node map, and tenant_id
to edge list.  Absent tenant entries of the Rust HashMaps are identified
with empty collections (observationally identical in the source). -/
structure InMemoryGraphStore : Type where
  nodes : String → Nat → Option Node
  edges : String → List Edge

/-- create_node from graph.rs: upsert into the tenant partition; always
reports success. -/
def create_node (node_id : Nat) (node_type : String) (tenant_id : String)
    (properties : Option (List (String × Json))) (st : InMemoryGraphStore) :
    InMemoryGraphStore × Bool :=
  ({ st with
      nodes := fun t =>
        if t = tenant_id then
          fun i => if i = node_id then
            some { id := node_id, node_type := node_type,
                   properties := properties.getD [] }
          else st.nodes t i
        else st.nodes t }, true)

/-- create_edge from graph.rs: append to the tenant edge collection; no
endpoint validation; always reports success. -/
def create_edge (source_id target_id : Nat) (edge_type : String)
    (tenant_id : String) (weight : Rat)
    (properties : Option (List (String × Json))) (st : InMemoryGraphStore) :
    InMemoryGraphStore × Bool :=
  ({ st with
      edges := fun t =>
        if t = tenant_id then
          st.edges t ++ [{ source_id := source_id, target_id := target_id,
                           edge_type := edge_type, weight := weight,
                           properties := properties.getD [] }]
        else st.edges t }, true)

/-- The edge-type filter of get_neighbors:
edge_type.map_or(true, type equality). -/
def typeOk (edge_type : Option String) (e : Edge) : Bool :=
  match edge_type with
  | some t => e.edge_type = t
  | none => true

/-- One step of the get_neighbors edge scan, switching on the direction
string exactly as the source match does (a match over string literals is
a sequence of equality tests with a catch-all). -/
def neighborStep (node_id : Nat) (edge_type : Option String)
    (direction : String) (acc : Finset Nat) (e : Edge) : Finset Nat :=
  if typeOk edge_type e then
    if direction = "out" then
      (if e.source_id = node_id then insert e.target_id acc else acc)
    else if direction = "in" then
      (if e.target_id = node_id then insert e.source_id acc else acc)
    else
      (if e.source_id = node_id then insert e.target_id acc
       else if e.target_id = node_id then insert e.source_id acc
       else acc)
  else acc

/-- get_neighbors from graph.rs: scan the tenant edges accumulating a
HashSet of neighbor ids (modelled as a Finset; the Rust then returns its
elements in arbitrary order).  The max_depth parameter is accepted but
unused, exactly as in the source (named _max_depth there too). -/
def get_neighbors (node_id : Nat) (tenant_id : String)
    (edge_type : Option String) (direction : String) (_max_depth : Nat)
    (st : InMemoryGraphStore) : Finset Nat :=
  (st.edges tenant_id).foldl (neighborStep node_id edge_type direction) ∅

/-- delete_node from graph.rs: remove the node from the tenant partition
(reporting whether it was present), and unconditionally drop every tenant
edge incident to it. -/
def delete_node (node_id : Nat) (tenant_id : String)
    (st : InMemoryGraphStore) : InMemoryGraphStore × Bool :=
  let removed := (st.nodes tenant_id node_id).isSome
  ({ nodes := fun t =>
        if t = tenant_id then
          fun i => if i = node_id then none else st.nodes t i
        else st.nodes t,
     edges := fun t =>
        if t = tenant_id then
          (st.edges t).filter
            (fun e => decide (e.source_id ≠ node_id) &&
                      decide (e.target_id ≠ node_id))
        else st.edges t }, removed)

/-- The exact-match predicate of delete_edge. -/
def edgeMatches (source_id target_id : Nat) (edge_type : String)
    (e : Edge) : Bool :=
  decide (e.source_id = source_id) && decide (e.target_id = target_id) &&
    decide (e.edge_type = edge_type)

/-- delete_edge from graph.rs: retain the non-matching tenant edges and
report whether the collection shrank. -/
def delete_edge (source_id target_id : Nat) (edge_type : String)
    (tenant_id : String) (st : InMemoryGraphStore) :
    InMemoryGraphStore × Bool :=
  let tes := st.edges tenant_id
  let remaining := tes.filter
    (fun e => !(edgeMatches source_id target_id edge_type e))
  ({ st with
      edges := fun t => if t = tenant_id then remaining else st.edges t },
   decide (remaining.length < tes.length))

/-- get_subgraph from graph.rs: the existing requested nodes, in request
order, and (when include_edges) the tenant edges with both endpoints in
the requested identifier set.  The Rust serializes this pair into a JSON
object; we model the payload itself. -/
def get_subgraph (node_ids : List Nat) (tenant_id : String)
    (include_edges : Bool) (st : InMemoryGraphStore) :
    List Node × List Edge :=
  let nodes_out := node_ids.filterMap (fun id => st.nodes tenant_id id)
  let edges_out :=
    if include_edges then
      (st.edges tenant_id).filter
        (fun e => decide (e.source_id ∈ node_ids) &&
                  decide (e.target_id ∈ node_ids))
    else []
  (nodes_out, edges_out)

/-- The neighbor computation of the shortest_path edge scan: exactly the
if/else-if of the source (a self-loop yields the target_id branch). -/
def nbr (e : Edge) (current : Nat) : Option Nat :=
  if e.source_id = current then some e.target_id
  else if e.target_id = current then some e.source_id
  else none

/-- Result of scanning all edges for one dequeued path: either the target
was reached (found), or the scan finished with the enlarged visited set
and the accumulated newly enqueued paths (frontier). -/
inductive ExpandRes : Type where
  | found : List Nat → ExpandRes
  | frontier : Finset Nat → List (List Nat) → ExpandRes

/-- The inner for-loop of shortest_path for one dequeued path: walk the
tenant edge list; a neighbor equal to the target returns path plus that
node immediately; an unvisited neighbor is marked visited and its
extended path queued. -/
def expand (target : Nat) (path : List Nat) (current : Nat) :
    List Edge → Finset Nat → List (List Nat) → ExpandRes
  | [], visited, acc => .frontier visited acc
  | e :: es, visited, acc =>
      match nbr e current with
      | none => expand target path current es visited acc
      | some n =>
          if n = target then .found (path ++ [n])
          else if n ∈ visited then expand target path current es visited acc
          else expand target path current es (insert n visited)
                 (acc ++ [path ++ [n]])

/-- All node identifiers occurring as an endpoint of some edge; only such
nodes can ever be newly visited, which bounds the BFS loop. -/
def edgeNodes : List Edge → Finset Nat
  | [] => ∅
  | e :: es => insert e.source_id (insert e.target_id (edgeNodes es))

theorem edgeNodes_cons_sub (e : Edge) (es : List Edge) :
    edgeNodes es ⊆ edgeNodes (e :: es) := by
  intro x hx
  simp only [edgeNodes, Finset.mem_insert]
  tauto

theorem nbr_mem_edgeNodes_cons {e : Edge} {c n : Nat} (es : List Edge)
    (h : nbr e c = some n) : n ∈ edgeNodes (e :: es) := by
  unfold nbr at h
  simp only [edgeNodes, Finset.mem_insert]
  split at h
  · simp at h; tauto
  · split at h
    · simp at h; tauto
    · exact absurd h (by simp)


/-- Everything the loop invariants need to know about a frontier result of
expand: the visited set only grows, previously queued paths survive, the
newly visited nodes are edge endpoints, each newly visited node pairs with
exactly one newly queued path (the cardinality equation), every queued
path extends the dequeued path by one adjacent non-target node that ends
up visited, and every neighbor of the scanned node ends up visited and
differs from the target. -/
theorem expand_frontier_master (target : Nat) (path : List Nat)
    (current : Nat) :
    ∀ (es : List Edge) (visited : Finset Nat) (acc : List (List Nat))
      (visited2 : Finset Nat) (acc2 : List (List Nat)),
      expand target path current es visited acc = .frontier visited2 acc2 →
      visited ⊆ visited2 ∧
      (∀ x, x ∈ acc → x ∈ acc2) ∧
      visited2 \ visited ⊆ edgeNodes es ∧
      acc2.length + visited.card = acc.length + visited2.card ∧
      (∀ q, q ∈ acc2 → q ∈ acc ∨
        ∃ n, q = path ++ [n] ∧ (∃ e, e ∈ es ∧ nbr e current = some n) ∧
          n ∈ visited2 ∧ n ≠ target) ∧
      (∀ e, e ∈ es → ∀ n, nbr e current = some n →
        n ∈ visited2 ∧ n ≠ target) ∧
      (∀ v, v ∈ visited2 → v ∈ visited ∨
        ∃ q, q ∈ acc2 ∧ q.getLast? = some v) := by
  intro es
  induction es with
  | nil =>
      intro visited acc visited2 acc2 h
      simp only [expand, ExpandRes.frontier.injEq] at h
      obtain ⟨rfl, rfl⟩ := h
      refine ⟨Finset.Subset.refl _, fun x hx => hx, ?_, by omega,
        fun q hq => Or.inl hq, by simp, fun v hv => Or.inl hv⟩
      simp
  | cons e es ih =>
      intro visited acc visited2 acc2 h
      simp only [expand] at h
      rcases hn : nbr e current with - | n
      · simp only [hn] at h
        obtain ⟨h1, h2, h3, h4, h5, h6, h7⟩ := ih visited acc visited2 acc2 h
        refine ⟨h1, h2, fun x hx => edgeNodes_cons_sub e es (h3 hx), h4,
          ?_, ?_, h7⟩
        · intro q hq
          rcases h5 q hq with hq' | ⟨n, hn1, ⟨e', he', hnb⟩, hn3, hn4⟩
          · exact Or.inl hq'
          · exact Or.inr ⟨n, hn1, ⟨e', List.mem_cons_of_mem _ he', hnb⟩,
              hn3, hn4⟩
        · intro e' he' n hnb
          rcases List.mem_cons.mp he' with rfl | he'
          · rw [hnb] at hn; cases hn
          · exact h6 e' he' n hnb
      · simp only [hn] at h
        by_cases ht : n = target
        · rw [if_pos ht] at h
          cases h
        · rw [if_neg ht] at h
          by_cases hv : n ∈ visited
          · rw [if_pos hv] at h
            obtain ⟨h1, h2, h3, h4, h5, h6, h7⟩ :=
              ih visited acc visited2 acc2 h
            refine ⟨h1, h2, fun x hx => edgeNodes_cons_sub e es (h3 hx), h4,
              ?_, ?_, h7⟩
            · intro q hq
              rcases h5 q hq with hq' | ⟨m, hm1, ⟨e', he', hnb⟩, hm3, hm4⟩
              · exact Or.inl hq'
              · exact Or.inr ⟨m, hm1, ⟨e', List.mem_cons_of_mem _ he', hnb⟩,
                  hm3, hm4⟩
            · intro e' he' m hnb
              rcases List.mem_cons.mp he' with rfl | he'
              · rw [hnb] at hn
                cases hn
                exact ⟨h1 hv, ht⟩
              · exact h6 e' he' m hnb
          · rw [if_neg hv] at h
            obtain ⟨h1, h2, h3, h4, h5, h6, h7⟩ :=
              ih (insert n visited) (acc ++ [path ++ [n]]) visited2 acc2 h
            have hnv2 : n ∈ visited2 := h1 (Finset.mem_insert_self n visited)
            refine ⟨?_, ?_, ?_, ?_, ?_, ?_, ?_⟩
            · exact fun x hx => h1 (Finset.mem_insert_of_mem hx)
            · exact fun x hx => h2 x (List.mem_append_left _ hx)
            · intro x hx
              rcases Finset.mem_sdiff.mp hx with ⟨hx2, hxv⟩
              by_cases hxn : x = n
              · subst hxn
                exact nbr_mem_edgeNodes_cons es hn
              · refine edgeNodes_cons_sub e es (h3 ?_)
                rw [Finset.mem_sdiff, Finset.mem_insert]
                tauto
            · have hcard : (insert n visited).card = visited.card + 1 :=
                Finset.card_insert_of_not_mem hv
              rw [hcard] at h4
              simp only [List.length_append, List.length_cons,
                List.length_nil] at h4
              omega
            · intro q hq
              rcases h5 q hq with hq' | ⟨m, hm1, ⟨e', he', hnb⟩, hm3, hm4⟩
              · rcases List.mem_append.mp hq' with hq'' | hq''
                · exact Or.inl hq''
                · have : q = path ++ [n] := by simpa using hq''
                  exact Or.inr ⟨n, this, ⟨e, List.mem_cons_self e es, hn⟩,
                    hnv2, ht⟩
              · exact Or.inr ⟨m, hm1, ⟨e', List.mem_cons_of_mem _ he', hnb⟩,
                  hm3, hm4⟩
            · intro e' he' m hnb
              rcases List.mem_cons.mp he' with rfl | he'
              · rw [hnb] at hn
                cases hn
                exact ⟨hnv2, ht⟩
              · exact h6 e' he' m hnb
            · intro v hv
              rcases h7 v hv with hv' | ⟨q, hq, hqlast⟩
              · rcases Finset.mem_insert.mp hv' with rfl | hv''
                · refine Or.inr ⟨path ++ [v], ?_, List.getLast?_concat _⟩
                  exact h2 _ (List.mem_append_right _ (by simp))
                · exact Or.inl hv''
              · exact Or.inr ⟨q, hq, hqlast⟩

/-- A found result of expand: the returned path is the dequeued path
extended by the target, and some scanned edge joins the scanned node to
the target. -/
theorem expand_found_master (target : Nat) (path : List Nat)
    (current : Nat) :
    ∀ (es : List Edge) (visited : Finset Nat) (acc : List (List Nat))
      (q : List Nat),
      expand target path current es visited acc = .found q →
      q = path ++ [target] ∧ ∃ e, e ∈ es ∧ nbr e current = some target := by
  intro es
  induction es with
  | nil => intro visited acc q h; simp [expand] at h
  | cons e es ih =>
      intro visited acc q h
      simp only [expand] at h
      rcases hn : nbr e current with - | n
      · simp only [hn] at h
        obtain ⟨h1, e', he', hnb⟩ := ih visited acc q h
        exact ⟨h1, e', List.mem_cons_of_mem _ he', hnb⟩
      · simp only [hn] at h
        by_cases ht : n = target
        · rw [if_pos ht] at h
          cases h
          exact ⟨by rw [ht], e, List.mem_cons_self e es, by rw [hn, ht]⟩
        · rw [if_neg ht] at h
          by_cases hv : n ∈ visited
          · rw [if_pos hv] at h
            obtain ⟨h1, e', he', hnb⟩ := ih visited acc q h
            exact ⟨h1, e', List.mem_cons_of_mem _ he', hnb⟩
          · rw [if_neg hv] at h
            obtain ⟨h1, e', he', hnb⟩ := ih _ _ q h
            exact ⟨h1, e', List.mem_cons_of_mem _ he', hnb⟩

/-- Cardinality bookkeeping for the BFS measure: if visited grew by
exactly k fresh edge-endpoint nodes, the unvisited edge-endpoint pool
shrank by exactly k. -/
theorem sdiff_card_step {N visited visited2 : Finset Nat} (k : Nat)
    (h1 : visited ⊆ visited2) (h2 : visited2 \ visited ⊆ N)
    (h3 : k + visited.card = visited2.card) :
    k + (N \ visited2).card = (N \ visited).card := by
  have hu : N \ visited = (N \ visited2) ∪ (visited2 \ visited) := by
    ext x
    simp only [Finset.mem_sdiff, Finset.mem_union]
    constructor
    · rintro ⟨hxN, hxv⟩
      by_cases hx2 : x ∈ visited2
      · exact Or.inr ⟨hx2, hxv⟩
      · exact Or.inl ⟨hxN, hx2⟩
    · rintro (⟨hxN, hx2⟩ | ⟨hx2, hxv⟩)
      · exact ⟨hxN, fun hxv => hx2 (h1 hxv)⟩
      · exact ⟨h2 (Finset.mem_sdiff.mpr ⟨hx2, hxv⟩), hxv⟩
  have hdisj : Disjoint (N \ visited2) (visited2 \ visited) := by
    simp only [Finset.disjoint_left, Finset.mem_sdiff]
    rintro x ⟨-, hx2⟩ ⟨hx2', -⟩
    exact hx2 hx2'
  have hcard : (N \ visited).card =
      (N \ visited2).card + (visited2 \ visited).card := by
    rw [hu, Finset.card_union_of_disjoint hdisj]
  have h4 : (visited2 \ visited).card = visited2.card - visited.card :=
    Finset.card_sdiff h1
  have h5 : visited.card ≤ visited2.card := Finset.card_le_card h1
  omega

/-- The while-let loop of shortest_path: dequeue a path; skip it if it
exceeds max_depth in nodes; otherwise scan all tenant edges from its last
node (expand), returning the extended path if the target appeared, else
enqueueing all fresh extensions.  Terminates because each iteration
either shortens the queue or pops one path while every enqueued path
consumes one unvisited edge endpoint.  The source unwraps path.last();
the none arm is unreachable because every queued path is nonempty. -/
def bfs (E : List Edge) (target max_depth : Nat) :
    List (List Nat) → Finset Nat → Option (List Nat)
  | [], _ => none
  | path :: queue, visited =>
      if path.length > max_depth then bfs E target max_depth queue visited
      else
        match path.getLast? with
        | none => bfs E target max_depth queue visited
        | some current =>
            match h : expand target path current E visited [] with
            | .found p => some p
            | .frontier visited2 pushes =>
                bfs E target max_depth (queue ++ pushes) visited2
termination_by q v => q.length + ((edgeNodes E) \ v).card
decreasing_by
· simp only [List.length_cons]
  omega
· simp only [List.length_cons]
  omega
· obtain ⟨h1, -, h3, h4, -, -, -⟩ :=
    expand_frontier_master target path current E visited [] visited2 pushes h
  have hk := sdiff_card_step (N := edgeNodes E) pushes.length h1 h3
    (by simpa using h4)
  simp only [List.length_append, List.length_cons]
  omega

/-- shortest_path from graph.rs: immediate single-node path when source
equals target; otherwise undirected BFS over the tenant edges starting
from the queue holding [source] with source visited.  (When the tenant
has no edge collection the Rust returns None early; the model's empty
edge list makes the BFS drain to None identically.) -/
def shortest_path (source_id target_id : Nat) (tenant_id : String)
    (max_depth : Nat) (st : InMemoryGraphStore) : Option (List Nat) :=
  if source_id = target_id then some [source_id]
  else bfs (st.edges tenant_id) target_id max_depth [[source_id]] {source_id}

theorem bfs_eq_none (E : List Edge) (t d : Nat) (v : Finset Nat) :
    bfs E t d [] v = none := by
  rw [bfs]

theorem bfs_skip (E : List Edge) (t d : Nat) (path : List Nat)
    (q : List (List Nat)) (v : Finset Nat) (h : path.length > d) :
    bfs E t d (path :: q) v = bfs E t d q v := by
  rw [bfs]
  simp [h]

theorem bfs_empty_path (E : List Edge) (t d : Nat) (path : List Nat)
    (q : List (List Nat)) (v : Finset Nat) (hd : ¬ path.length > d)
    (hlast : path.getLast? = none) :
    bfs E t d (path :: q) v = bfs E t d q v := by
  rw [bfs]
  simp [hd, hlast]

theorem bfs_found (E : List Edge) (t d : Nat) (path : List Nat) (c : Nat)
    (q : List (List Nat)) (v : Finset Nat) (p : List Nat)
    (hd : ¬ path.length > d) (hlast : path.getLast? = some c)
    (hexp : expand t path c E v [] = .found p) :
    bfs E t d (path :: q) v = some p := by
  rw [bfs]
  simp only [hd, hlast, if_false, gt_iff_lt, ite_false]
  split
  · rename_i p' heq
    rw [hexp] at heq
    cases heq
    rfl
  · rename_i v2' ps' heq
    rw [hexp] at heq
    cases heq

theorem bfs_frontier (E : List Edge) (t d : Nat) (path : List Nat) (c : Nat)
    (q : List (List Nat)) (v v2 : Finset Nat) (ps : List (List Nat))
    (hd : ¬ path.length > d) (hlast : path.getLast? = some c)
    (hexp : expand t path c E v [] = .frontier v2 ps) :
    bfs E t d (path :: q) v = bfs E t d (q ++ ps) v2 := by
  rw [bfs]
  simp only [hd, hlast, if_false, gt_iff_lt, ite_false]
  split
  · rename_i p' heq
    rw [hexp] at heq
    cases heq
  · rename_i v2' ps' heq
    rw [hexp] at heq
    cases heq
    rfl

/-- Adjacency as the BFS edge scan computes it: some edge of E yields v
as the neighbor of u. -/
def Adj (E : List Edge) (u v : Nat) : Prop :=
  ∃ e, e ∈ E ∧ nbr e u = some v

/-- Adjacency as the specification words it: some edge of E joins u and v
taken in either orientation. -/
def AdjSpec (E : List Edge) (u v : Nat) : Prop :=
  ∃ e, e ∈ E ∧
    ((e.source_id = u ∧ e.target_id = v) ∨
     (e.source_id = v ∧ e.target_id = u))

theorem nbr_eq_some_iff (e : Edge) (u v : Nat) :
    nbr e u = some v ↔
      (e.source_id = u ∧ e.target_id = v) ∨
      (e.source_id = v ∧ e.target_id = u) := by
  unfold nbr
  by_cases h1 : e.source_id = u
  · rw [if_pos h1]
    simp only [Option.some.injEq]
    constructor
    · intro h; exact Or.inl ⟨h1, h⟩
    · rintro (⟨-, h⟩ | ⟨hsv, htu⟩)
      · exact h
      · omega
  · rw [if_neg h1]
    by_cases h2 : e.target_id = u
    · rw [if_pos h2]
      simp only [Option.some.injEq]
      constructor
      · intro h; exact Or.inr ⟨h, h2⟩
      · rintro (⟨hsu, -⟩ | ⟨hsv, -⟩)
        · exact absurd hsu h1
        · exact hsv
    · rw [if_neg h2]
      constructor
      · intro h; cases h
      · rintro (⟨hsu, -⟩ | ⟨-, htu⟩)
        · exact absurd hsu h1
        · exact absurd htu h2

/-- The scan adjacency and the specification adjacency coincide. -/
theorem adj_iff_adjSpec (E : List Edge) (u v : Nat) :
    Adj E u v ↔ AdjSpec E u v := by
  unfold Adj AdjSpec
  constructor
  · rintro ⟨e, he, h⟩
    exact ⟨e, he, (nbr_eq_some_iff e u v).mp h⟩
  · rintro ⟨e, he, h⟩
    exact ⟨e, he, (nbr_eq_some_iff e u v).mpr h⟩

/-- Extending a walk by one adjacent node. -/
theorem walk_extend {E : List Edge} {path : List Nat} {current m source : Nat}
    (hne : path ≠ []) (hhead : path.head? = some source)
    (hchain : List.Chain' (Adj E) path)
    (hlast : path.getLast? = some current) (hadj : Adj E current m) :
    path ++ [m] ≠ [] ∧ (path ++ [m]).head? = some source ∧
      List.Chain' (Adj E) (path ++ [m]) ∧
      (path ++ [m]).getLast? = some m := by
  obtain ⟨a, p', rfl⟩ : ∃ a p', path = a :: p' := by
    cases path with
    | nil => exact absurd rfl hne
    | cons a p' => exact ⟨a, p', rfl⟩
  refine ⟨by simp, by simpa using hhead, ?_, ?_⟩
  · apply List.Chain'.append hchain (List.chain'_singleton m)
    intro x hx y hy
    rw [hlast] at hx
    simp only [Option.mem_def, Option.some.injEq] at hx
    simp only [List.head?_cons, Option.mem_def, Option.some.injEq] at hy
    subst hx
    subst hy
    exact hadj
  · show ((a :: p') ++ [m]).getLast? = some m
    exact List.getLast?_concat _

/-- Soundness of the BFS loop: when every queued path is a nonempty chain
from the source, a returned path is a nonempty chain from the source
ending at the target. -/
theorem bfs_sound (E : List Edge) (source target max_depth : Nat) :
    ∀ (n : Nat) (Q : List (List Nat)) (visited : Finset Nat),
      Q.length + ((edgeNodes E) \ visited).card ≤ n →
      (∀ p, p ∈ Q → p ≠ [] ∧ p.head? = some source ∧
        List.Chain' (Adj E) p) →
      ∀ res, bfs E target max_depth Q visited = some res →
        res ≠ [] ∧ res.head? = some source ∧ res.getLast? = some target ∧
          List.Chain' (Adj E) res := by
  intro n
  induction n with
  | zero =>
      intro Q visited hm hinv res hres
      have hQ : Q = [] := by
        cases Q with
        | nil => rfl
        | cons p q => simp at hm
      subst hQ
      rw [bfs_eq_none] at hres
      cases hres
  | succ n ih =>
      intro Q visited hm hinv res hres
      cases Q with
      | nil => rw [bfs_eq_none] at hres; cases hres
      | cons path queue =>
          by_cases hd : path.length > max_depth
          · rw [bfs_skip E target max_depth path queue visited hd] at hres
            refine ih queue visited ?_ ?_ res hres
            · simp only [List.length_cons] at hm; omega
            · exact fun p hp => hinv p (List.mem_cons_of_mem _ hp)
          · rcases hlast : path.getLast? with - | current
            · have h1 := hinv path (List.mem_cons_self _ _)
              rw [List.getLast?_eq_none_iff] at hlast
              exact absurd hlast h1.1
            · cases hexp : expand target path current E visited [] with
              | found p =>
                rw [bfs_found E target max_depth path current queue visited
                  p hd hlast hexp] at hres
                cases hres
                obtain ⟨hpeq, e, heE, hnbr⟩ :=
                  expand_found_master target path current E visited [] res hexp
                subst hpeq
                obtain ⟨hne, hhead, hchain⟩ := hinv path (List.mem_cons_self _ _)
                obtain ⟨w1, w2, w3, w4⟩ :=
                  walk_extend hne hhead hchain hlast ⟨e, heE, hnbr⟩
                exact ⟨w1, w2, w4, w3⟩
              | frontier visited2 pushes =>
                rw [bfs_frontier E target max_depth path current queue visited
                  visited2 pushes hd hlast hexp] at hres
                obtain ⟨h1, -, h3, h4, h5, -, -⟩ :=
                  expand_frontier_master target path current E visited []
                    visited2 pushes hexp
                refine ih (queue ++ pushes) visited2 ?_ ?_ res hres
                · have hk := sdiff_card_step (N := edgeNodes E)
                    pushes.length h1 h3 (by simpa using h4)
                  simp only [List.length_cons] at hm
                  simp only [List.length_append]
                  omega
                · intro p hp
                  rcases List.mem_append.mp hp with hp' | hp'
                  · exact hinv p (List.mem_cons_of_mem _ hp')
                  · rcases h5 p hp' with hfalse | ⟨m, hm1, hadj, -, -⟩
                    · cases hfalse
                    · subst hm1
                      obtain ⟨hne, hhead, hchain⟩ :=
                        hinv path (List.mem_cons_self _ _)
                      obtain ⟨w1, w2, w3, -⟩ :=
                        walk_extend hne hhead hchain hlast hadj
                      exact ⟨w1, w2, w3⟩

/-- The BFS queue is sorted by nondecreasing path length (BFS pops in
FIFO order and pushes only extensions of the front). -/
def QueueSorted (Q : List (List Nat)) : Prop :=
  List.Pairwise (fun p q => p.length ≤ q.length) Q

/-- Every queued path is at most one node longer than the front path. -/
def QueueWindow (Q : List (List Nat)) : Prop :=
  ∀ p, p ∈ Q → ∀ f, Q.head? = some f → p.length ≤ f.length + 1

/-- Every visited node either still has a queued path ending at it, or has
been fully expanded: all its neighbors are visited and none is the
target (had one been the target the loop would have returned). -/
def Closure (E : List Edge) (target : Nat) (Q : List (List Nat))
    (visited : Finset Nat) : Prop :=
  ∀ v, v ∈ visited →
    (∃ q, q ∈ Q ∧ q.getLast? = some v) ∨
    (∀ m, Adj E v m → m ∈ visited ∧ m ≠ target)

/-- The queue covers the walk w: some queued path ends at a non-final
node of w and is no longer than that prefix of w. -/
def Cover (Q : List (List Nat)) (w : List Nat) : Prop :=
  ∃ q, q ∈ Q ∧ ∃ i : Nat, i + 1 < w.length ∧ q.getLast? = w[i]? ∧
    q.length ≤ i + 1

theorem chain_adj_get (R : Nat → Nat → Prop) (w : List Nat)
    (hchain : List.Chain' R w) (i : Nat) (hi : i + 1 < w.length)
    (x y : Nat) (hx : w[i]? = some x) (hy : w[i + 1]? = some y) :
    R x y := by
  have h := List.chain'_iff_get.mp hchain i (by omega)
  rw [List.getElem?_eq_getElem (show i < w.length by omega)] at hx
  rw [List.getElem?_eq_getElem hi] at hy
  injection hx with hx
  injection hy with hy
  rw [← hx, ← hy]
  simpa [List.get_eq_getElem] using h

/-- Once the front path exceeds the depth bound, every later path does
too (the queue is popped in order), so the loop drains and returns
nothing. -/
theorem bfs_none_of_all_deep (E : List Edge) (target max_depth : Nat) :
    ∀ (Q : List (List Nat)) (visited : Finset Nat),
      (∀ p, p ∈ Q → p.length > max_depth) →
      bfs E target max_depth Q visited = none := by
  intro Q
  induction Q with
  | nil => intro visited _; exact bfs_eq_none E target max_depth visited
  | cons path queue ih =>
      intro visited hall
      rw [bfs_skip E target max_depth path queue visited
        (hall path (List.mem_cons_self _ _))]
      exact ih visited (fun p hp => hall p (List.mem_cons_of_mem _ hp))

/-- Walking forward along w from a visited non-final node, the closure
invariant either hands us a queued path (covering w) or pushes us one
node further along w; the walk ends at the target, which is never behind
a fully-expanded node, so a queued path must appear. -/
theorem cover_of_visited (E : List Edge) (target : Nat)
    (Q : List (List Nat)) (visited : Finset Nat) (b : Nat)
    (hclo : Closure E target Q visited)
    (hwin : ∀ q, q ∈ Q → q.length ≤ b)
    (w : List Nat) (hwlast : w.getLast? = some target)
    (hchain : List.Chain' (Adj E) w) :
    ∀ (d j vj : Nat), w.length - 1 - j ≤ d → j + 1 < w.length →
      w[j]? = some vj → vj ∈ visited → b ≤ j + 1 → Cover Q w := by
  intro d
  induction d with
  | zero => intro j vj hd hj1 _ _ _; omega
  | succ d ih =>
      intro j vj hd hj1 hjw hjv hb
      rcases hclo vj hjv with ⟨q, hqQ, hqlast⟩ | hnb
      · exact ⟨q, hqQ, j, hj1, by rw [hqlast, hjw],
          le_trans (hwin q hqQ) hb⟩
      · obtain ⟨y, hy⟩ : ∃ y, w[j + 1]? = some y :=
          ⟨_, List.getElem?_eq_getElem hj1⟩
        have hadj : Adj E vj y := chain_adj_get (Adj E) w hchain j hj1 vj y hjw hy
        obtain ⟨hyv, hyt⟩ := hnb y hadj
        have hwlast2 : w[w.length - 1]? = some target := by
          rw [← List.getLast?_eq_getElem? w]
          exact hwlast
        have hj2 : j + 2 < w.length := by
          by_contra hcon
          have he : j + 1 = w.length - 1 := by omega
          rw [he, hwlast2] at hy
          injection hy with hy
          exact hyt hy.symm
        exact ih (j + 1) y (by omega) hj2 hy hyv (by omega)

/-- Minimality of the BFS loop: under the sortedness, window and closure
invariants, a returned path is no longer than any walk to the target that
the queue covers. -/
theorem bfs_min (E : List Edge) (target max_depth : Nat) :
    ∀ (n : Nat) (Q : List (List Nat)) (visited : Finset Nat),
      Q.length + ((edgeNodes E) \ visited).card ≤ n →
      QueueSorted Q → QueueWindow Q → Closure E target Q visited →
      ∀ res, bfs E target max_depth Q visited = some res →
      ∀ w, w.getLast? = some target → List.Chain' (Adj E) w →
        Cover Q w → res.length ≤ w.length := by
  intro n
  induction n with
  | zero =>
      intro Q visited hm _ _ _ res hres _ _ _ _
      have hQ : Q = [] := by
        cases Q with
        | nil => rfl
        | cons p q => simp at hm
      subst hQ
      rw [bfs_eq_none] at hres
      cases hres
  | succ n ih =>
      intro Q visited hm hsort hwin hclo res hres w hwlast hwchain hcov
      cases Q with
      | nil => rw [bfs_eq_none] at hres; cases hres
      | cons path queue =>
          by_cases hd : path.length > max_depth
          · have hall : ∀ p, p ∈ path :: queue → p.length > max_depth := by
              intro p hp
              rcases List.mem_cons.mp hp with rfl | hp'
              · exact hd
              · have := (List.pairwise_cons.mp hsort).1 p hp'
                omega
            rw [bfs_none_of_all_deep E target max_depth (path :: queue)
              visited hall] at hres
            cases hres
          · rcases hlast : path.getLast? with - | current
            · rw [bfs_empty_path E target max_depth path queue visited hd
                hlast] at hres
              have hpnil : path = [] := List.getLast?_eq_none_iff.mp hlast
              subst hpnil
              refine ih queue visited ?_ (List.pairwise_cons.mp hsort).2
                ?_ ?_ res hres w hwlast hwchain ?_
              · simp only [List.length_cons] at hm; omega
              · intro p hp f hf
                have hw1 := hwin p (List.mem_cons_of_mem _ hp) [] rfl
                simp only [List.length_nil] at hw1
                omega
              · intro v hv
                rcases hclo v hv with ⟨q, hqQ, hqlast⟩ | hnb
                · rcases List.mem_cons.mp hqQ with rfl | hq
                  · cases hqlast
                  · exact Or.inl ⟨q, hq, hqlast⟩
                · exact Or.inr hnb
              · obtain ⟨q, hqQ, i, hi1, hqlast, hqlen⟩ := hcov
                rcases List.mem_cons.mp hqQ with rfl | hq
                · rw [List.getElem?_eq_getElem (show i < w.length by omega)]
                    at hqlast
                  cases hqlast
                · exact ⟨q, hq, i, hi1, hqlast, hqlen⟩
            · cases hexp : expand target path current E visited [] with
              | found p =>
                rw [bfs_found E target max_depth path current queue visited
                  p hd hlast hexp] at hres
                cases hres
                obtain ⟨hpeq, -⟩ :=
                  expand_found_master target path current E visited [] res hexp
                obtain ⟨q, hqQ, i, hi1, hqlast, hqlen⟩ := hcov
                have hpq : path.length ≤ q.length := by
                  rcases List.mem_cons.mp hqQ with rfl | hq
                  · exact le_refl _
                  · exact (List.pairwise_cons.mp hsort).1 q hq
                subst hpeq
                simp only [List.length_append, List.length_cons,
                  List.length_nil]
                omega
              | frontier visited2 pushes =>
                rw [bfs_frontier E target max_depth path current queue visited
                  visited2 pushes hd hlast hexp] at hres
                obtain ⟨h1, -, h3, h4, h5, h6, h7⟩ :=
                  expand_frontier_master target path current E visited []
                    visited2 pushes hexp
                have hqwin : ∀ p, p ∈ queue ++ pushes →
                    p.length ≤ path.length + 1 := by
                  intro p hp
                  rcases List.mem_append.mp hp with hp' | hp'
                  · exact hwin p (List.mem_cons_of_mem _ hp') path rfl
                  · rcases h5 p hp' with hfalse | ⟨m, rfl, -, -, -⟩
                    · cases hfalse
                    · simp
                have hpushlen : ∀ p, p ∈ pushes →
                    p.length = path.length + 1 := by
                  intro p hp
                  rcases h5 p hp with hfalse | ⟨m, rfl, -, -, -⟩
                  · cases hfalse
                  · simp
                have hsort2 : QueueSorted (queue ++ pushes) := by
                  rw [QueueSorted, List.pairwise_append]
                  refine ⟨(List.pairwise_cons.mp hsort).2, ?_, ?_⟩
                  · apply List.pairwise_of_forall_mem_list
                    intro a ha b hb
                    rw [hpushlen a ha, hpushlen b hb]
                  · intro a ha b hb
                    have h1a := hwin a (List.mem_cons_of_mem _ ha) path rfl
                    rw [hpushlen b hb]
                    omega
                have hwin2 : QueueWindow (queue ++ pushes) := by
                  intro p hp f hf
                  have hp1 := hqwin p hp
                  have hf1 : path.length ≤ f.length := by
                    cases queue with
                    | nil =>
                        simp only [List.nil_append] at hf
                        have hfm : f ∈ pushes :=
                          List.mem_of_mem_head? (by simp [hf])
                        rw [hpushlen f hfm]
                        omega
                    | cons f0 rest =>
                        simp only [List.cons_append, List.head?_cons,
                          Option.some.injEq] at hf
                        subst hf
                        exact (List.pairwise_cons.mp hsort).1 f0
                          (List.mem_cons_self _ _)
                  omega
                have hclo2 : Closure E target (queue ++ pushes) visited2 := by
                  intro v hv
                  rcases h7 v hv with hvold | ⟨q, hq, hqlast⟩
                  · rcases hclo v hvold with ⟨q, hqQ, hqlast⟩ | hnbv
                    · rcases List.mem_cons.mp hqQ with rfl | hq
                      · right
                        intro m hadj
                        have hvc : current = v := by
                          rw [hlast] at hqlast
                          injection hqlast
                        obtain ⟨e, heE, hnb⟩ := hadj
                        exact h6 e heE m (by rw [hvc]; exact hnb)
                      · exact Or.inl ⟨q, List.mem_append_left _ hq, hqlast⟩
                    · right
                      intro m hadj
                      obtain ⟨hm1, hm2⟩ := hnbv m hadj
                      exact ⟨h1 hm1, hm2⟩
                  · exact Or.inl ⟨q, List.mem_append_right _ hq, hqlast⟩
                have hcov2 : Cover (queue ++ pushes) w := by
                  obtain ⟨q, hqQ, i, hi1, hqlast, hqlen⟩ := hcov
                  rcases List.mem_cons.mp hqQ with rfl | hq
                  · have hwi : w[i]? = some current := by
                      rw [← hqlast, hlast]
                    obtain ⟨y, hy⟩ : ∃ y, w[i + 1]? = some y :=
                      ⟨_, List.getElem?_eq_getElem hi1⟩
                    have hadj : Adj E current y :=
                      chain_adj_get (Adj E) w hwchain i hi1 current y hwi hy
                    obtain ⟨e, heE, hnb⟩ := hadj
                    obtain ⟨hyv, hyt⟩ := h6 e heE y hnb
                    have hwlast2 : w[w.length - 1]? = some target := by
                      rw [← List.getLast?_eq_getElem? w]
                      exact hwlast
                    have hi2 : i + 2 < w.length := by
                      by_contra hcon
                      have he : i + 1 = w.length - 1 := by omega
                      rw [he, hwlast2] at hy
                      injection hy with hy
                      exact hyt hy.symm
                    exact cover_of_visited E target (queue ++ pushes)
                      visited2 (q.length + 1) hclo2 hqwin w hwlast hwchain
                      w.length (i + 1) y (by omega) hi2 hy hyv (by omega)
                  · exact ⟨q, List.mem_append_left _ hq, i, hi1, hqlast, hqlen⟩
                refine ih (queue ++ pushes) visited2 ?_ hsort2 hwin2 hclo2
                  res hres w hwlast hwchain hcov2
                have hk := sdiff_card_step (N := edgeNodes E)
                  pushes.length h1 h3 (by simpa using h4)
                simp only [List.length_cons] at hm
                simp only [List.length_append]
                omega

/-- Depth behaviour of the BFS loop: a dequeued path is only expanded
while its node count is at most max_depth, and the returned path adds one
final node, so any returned path has at most max_depth + 1 nodes. -/
theorem bfs_depth (E : List Edge) (target max_depth : Nat) :
    ∀ (n : Nat) (Q : List (List Nat)) (visited : Finset Nat),
      Q.length + ((edgeNodes E) \ visited).card ≤ n →
      ∀ res, bfs E target max_depth Q visited = some res →
        res.length ≤ max_depth + 1 := by
  intro n
  induction n with
  | zero =>
      intro Q visited hm res hres
      have hQ : Q = [] := by
        cases Q with
        | nil => rfl
        | cons p q => simp at hm
      subst hQ
      rw [bfs_eq_none] at hres
      cases hres
  | succ n ih =>
      intro Q visited hm res hres
      cases Q with
      | nil => rw [bfs_eq_none] at hres; cases hres
      | cons path queue =>
          by_cases hd : path.length > max_depth
          · rw [bfs_skip E target max_depth path queue visited hd] at hres
            refine ih queue visited ?_ res hres
            simp only [List.length_cons] at hm
            omega
          · rcases hlast : path.getLast? with - | current
            · rw [bfs_empty_path E target max_depth path queue visited hd
                hlast] at hres
              refine ih queue visited ?_ res hres
              simp only [List.length_cons] at hm
              omega
            · cases hexp : expand target path current E visited [] with
              | found p =>
                rw [bfs_found E target max_depth path current queue visited
                  p hd hlast hexp] at hres
                cases hres
                obtain ⟨hpeq, -⟩ :=
                  expand_found_master target path current E visited [] res hexp
                subst hpeq
                simp only [List.length_append, List.length_cons,
                  List.length_nil]
                omega
              | frontier visited2 pushes =>
                rw [bfs_frontier E target max_depth path current queue visited
                  visited2 pushes hd hlast hexp] at hres
                obtain ⟨h1, -, h3, h4, -, -, -⟩ :=
                  expand_frontier_master target path current E visited []
                    visited2 pushes hexp
                refine ih (queue ++ pushes) visited2 ?_ res hres
                have hk := sdiff_card_step (N := edgeNodes E)
                  pushes.length h1 h3 (by simpa using h4)
                simp only [List.length_cons] at hm
                simp only [List.length_append]
                omega

/-- Full correctness of shortest_path for distinct endpoints: a returned
path runs from source to target along edges of the tenant edge
collection taken in either orientation, and no such walk is strictly
shorter. -/
theorem shortest_path_correct (st : InMemoryGraphStore)
    (source target : Nat) (tenant : String) (max_depth : Nat)
    (hne : source ≠ target) (res : List Nat)
    (hres : shortest_path source target tenant max_depth st = some res) :
    res.head? = some source ∧ res.getLast? = some target ∧
      List.Chain' (AdjSpec (st.edges tenant)) res ∧
      (∀ w, w.head? = some source → w.getLast? = some target →
        List.Chain' (AdjSpec (st.edges tenant)) w →
        res.length ≤ w.length) := by
  unfold shortest_path at hres
  rw [if_neg hne] at hres
  have hinv : ∀ p, p ∈ ([[source]] : List (List Nat)) → p ≠ [] ∧
      p.head? = some source ∧ List.Chain' (Adj (st.edges tenant)) p := by
    intro p hp
    have hps : p = [source] := by simpa using hp
    subst hps
    exact ⟨by simp, rfl, List.chain'_singleton _⟩
  obtain ⟨-, hhead, hlast, hchain⟩ :=
    bfs_sound (st.edges tenant) source target max_depth
      (1 + ((edgeNodes (st.edges tenant)) \ {source}).card)
      [[source]] {source} (by simp) hinv res hres
  refine ⟨hhead, hlast,
    hchain.imp (fun {a b} h => (adj_iff_adjSpec (st.edges tenant) a b).mp h),
    ?_⟩
  intro w hwh hwl hwc
  have hwadj : List.Chain' (Adj (st.edges tenant)) w :=
    hwc.imp (fun {a b} h => (adj_iff_adjSpec (st.edges tenant) a b).mpr h)
  have hw2 : 2 ≤ w.length := by
    cases w with
    | nil => cases hwh
    | cons a t =>
        cases t with
        | nil =>
            simp only [List.head?_cons, Option.some.injEq] at hwh
            simp only [List.getLast?_singleton, Option.some.injEq] at hwl
            subst hwh
            subst hwl
            exact absurd rfl hne
        | cons b t2 => simp [List.length_cons]
  have hw0 : w[0]? = some source := by
    cases w with
    | nil => cases hwh
    | cons a t => simpa using hwh
  have hcover : Cover [[source]] w := by
    refine ⟨[source], by simp, 0, by omega, ?_, by simp⟩
    rw [hw0]
    simp
  have hsort : QueueSorted [[source]] := by
    simp [QueueSorted]
  have hwin : QueueWindow [[source]] := by
    intro p hp f hf
    have hps : p = [source] := by simpa using hp
    have hfs : [source] = f := by simpa using hf
    subst hps
    rw [← hfs]
    simp
  have hclo : Closure (st.edges tenant) target [[source]] {source} := by
    intro v hv
    left
    refine ⟨[source], by simp, ?_⟩
    have hvs : v = source := Finset.mem_singleton.mp hv
    simp [hvs]
  exact bfs_min (st.edges tenant) target max_depth
    (1 + ((edgeNodes (st.edges tenant)) \ {source}).card)
    [[source]] {source} (by simp) hsort hwin hclo res hres w hwl hwadj hcover

/-- A lookup hit names an entry of the association list. -/
theorem lookup_mem {s : MemState} {id : Nat} {r : MemoryRecord}
    (h : s.lookup id = some r) : (id, r) ∈ s := by
  induction s with
  | nil => cases h
  | cons p t ih =>
      obtain ⟨k, v⟩ := p
      rw [List.lookup] at h
      rcases hk : (id == k) with - | -
      · rw [hk] at h
        exact List.mem_cons_of_mem _ (ih h)
      · rw [hk] at h
        injection h with h
        have hk2 : id = k := by simpa using hk
        subst hk2
        subst h
        exact List.mem_cons_self _ _

/-- Membership after setFirst: an entry either survives unchanged or is
the replacement. -/
theorem setFirst_mem_cases (id : Nat) (r' : MemoryRecord) :
    ∀ (s : MemState) (p : Nat × MemoryRecord), p ∈ setFirst id r' s →
      p ∈ s ∨ p = (id, r') := by
  intro s
  induction s with
  | nil => intro p hp; cases hp
  | cons q t ih =>
      intro p hp
      rw [setFirst] at hp
      by_cases hq : q.1 = id
      · rw [if_pos hq] at hp
        rcases List.mem_cons.mp hp with rfl | hp'
        · exact Or.inr rfl
        · exact Or.inl (List.mem_cons_of_mem _ hp')
      · rw [if_neg hq] at hp
        rcases List.mem_cons.mp hp with rfl | hp'
        · exact Or.inl (List.mem_cons_self _ _)
        · rcases ih p hp' with h | h
          · exact Or.inl (List.mem_cons_of_mem _ h)
          · exact Or.inr h

/-- setFirst at a present key makes lookup return the replacement. -/
theorem setFirst_lookup_self {id : Nat} (r' : MemoryRecord) :
    ∀ (s : MemState) (r : MemoryRecord), s.lookup id = some r →
      (setFirst id r' s).lookup id = some r' := by
  intro s
  induction s with
  | nil => intro r h; cases h
  | cons q t ih =>
      intro r h
      obtain ⟨k, v⟩ := q
      rw [List.lookup] at h
      rw [setFirst]
      by_cases hk : k = id
      · rw [if_pos hk]
        rw [List.lookup]
        simp
      · rw [if_neg hk]
        rw [List.lookup]
        have hbeq : (id == k) = false := by simpa using (Ne.symm hk)
        rw [hbeq] at h
        rw [hbeq]
        exact ih r h

/-- setFirst leaves lookups at other keys unchanged. -/
theorem setFirst_lookup_ne {id : Nat} (r' : MemoryRecord) (j : Nat)
    (hj : j ≠ id) :
    ∀ (s : MemState), (setFirst id r' s).lookup j = s.lookup j := by
  intro s
  induction s with
  | nil => rfl
  | cons q t ih =>
      obtain ⟨k, v⟩ := q
      rw [setFirst]
      by_cases hk : k = id
      · rw [if_pos hk]
        rw [List.lookup, List.lookup]
        have h1 : (j == id) = false := by simpa using hj
        have h2 : (j == k) = false := by rw [hk]; exact h1
        rw [h1, h2]
      · rw [if_neg hk]
        rw [List.lookup, List.lookup]
        rcases hkj : (j == k) with - | -
        · exact ih
        · rfl

/-- Membership after hmInsert: an entry either survives (possibly it was
the replaced one) or is the inserted pair. -/
theorem hmInsert_mem_cases (id : Nat) (r : MemoryRecord) (s : MemState) :
    ∀ p, p ∈ hmInsert id r s → p ∈ s ∨ p = (id, r) := by
  intro p hp
  unfold hmInsert at hp
  split at hp
  · rcases List.mem_map.mp hp with ⟨q, hq, hfq⟩
    by_cases hq1 : q.1 = id
    · rw [if_pos hq1] at hfq
      exact Or.inr hfq.symm
    · rw [if_neg hq1] at hfq
      subst hfq
      exact Or.inl hq
  · rcases List.mem_append.mp hp with hp' | hp'
    · exact Or.inl hp'
    · exact Or.inr (by simpa using hp')

/-- A fully specified sample record used by concrete instances. -/
def mkRecord (id : Nat) (tenant agent content : String)
    (layer : MemoryLayer) (now : Nat) : MemoryRecord :=
  { id := id, tenant_id := tenant, agent_id := agent, content := content,
    layer := layer, importance := 1, tags := [], metadata := [],
    created_at := now, updated_at := now, expires_at := none,
    last_accessed_at := none, access_count := 0 }

/-- C1: Tenant isolation of the memory store.  For any store state
holding a record with identifier id owned by tenant T1, and any other
tenant T2: get_memory under T2 reports absent, update_memory and
delete_memory under T2 report false and leave the state unchanged (so
every stored record is unchanged), and get_memory under T1 still returns
the original record - a cross-tenant probe behaves exactly like a
nonexistent identifier (absent / false / false with no state change). -/
theorem C1_tenant_isolation (s : MemState) (id : Nat) (r : MemoryRecord)
    (T1 T2 : String) (upd : List (String × Json)) (now : Nat)
    (hne : T1 ≠ T2) (hlook : s.lookup id = some r)
    (hten : r.tenant_id = T1) :
    get_memory id T2 s = none ∧
    update_memory id T2 upd now s = (s, false) ∧
    delete_memory id T2 s = (s, false) ∧
    get_memory id T1 s = some r := by
  have hT2 : r.tenant_id ≠ T2 := by rw [hten]; exact hne
  refine ⟨?_, ?_, ?_, ?_⟩
  · unfold get_memory
    rw [hlook]
    simp [hT2]
  · unfold update_memory
    rw [hlook]
    simp [hT2]
  · unfold delete_memory
    rw [hlook]
    simp [hT2]
  · unfold get_memory
    rw [hlook]
    simp [hten]

/-- Witness for C1 at a concrete one-record store. -/
theorem C1_tenant_isolation_witness :
    get_memory 1 "t2" [(1, mkRecord 1 "t1" "a" "c" MemoryLayer.Working 0)]
      = none ∧
    update_memory 1 "t2" [] 5
      [(1, mkRecord 1 "t1" "a" "c" MemoryLayer.Working 0)] =
      ([(1, mkRecord 1 "t1" "a" "c" MemoryLayer.Working 0)], false) ∧
    delete_memory 1 "t2"
      [(1, mkRecord 1 "t1" "a" "c" MemoryLayer.Working 0)] =
      ([(1, mkRecord 1 "t1" "a" "c" MemoryLayer.Working 0)], false) ∧
    get_memory 1 "t1" [(1, mkRecord 1 "t1" "a" "c" MemoryLayer.Working 0)]
      = some (mkRecord 1 "t1" "a" "c" MemoryLayer.Working 0) :=
  C1_tenant_isolation
    [(1, mkRecord 1 "t1" "a" "c" MemoryLayer.Working 0)] 1
    (mkRecord 1 "t1" "a" "c" MemoryLayer.Working 0) "t1" "t2" [] 5
    (by decide) rfl rfl

/-- C2 counterexample: the claim says update_memory applies the partial
field updates of the updates map to the stored record.  At this concrete
input the record belongs to the tenant and the updates map sets the
record field content to the string new, update_memory reports true, yet
the stored content is still the old value - no field update is ever
applied (the Rust body ignores its updates parameter). -/
theorem C2_counterexample :
    (update_memory 1 "t" [("content", Json.str "new")] 7
        [(1, mkRecord 1 "t" "a" "old" MemoryLayer.Working 0)]).2 = true ∧
    ((update_memory 1 "t" [("content", Json.str "new")] 7
        [(1, mkRecord 1 "t" "a" "old" MemoryLayer.Working 0)]).1.lookup
        1).map MemoryRecord.content = some "old" ∧
    ("old" : String) ≠ "new" :=
  ⟨rfl, rfl, by decide⟩

theorem update_memory_none (id : Nat) (tenant : String)
    (upd : List (String × Json)) (now : Nat) (s : MemState)
    (h : s.lookup id = none) :
    update_memory id tenant upd now s = (s, false) := by
  simp [update_memory, h]

theorem update_memory_pos (id : Nat) (tenant : String)
    (upd : List (String × Json)) (now : Nat) (s : MemState)
    (r : MemoryRecord) (h : s.lookup id = some r)
    (ht : r.tenant_id = tenant) :
    update_memory id tenant upd now s =
      (setFirst id { r with updated_at := now } s, true) := by
  simp [update_memory, h, ht]

theorem update_memory_neg (id : Nat) (tenant : String)
    (upd : List (String × Json)) (now : Nat) (s : MemState)
    (r : MemoryRecord) (h : s.lookup id = some r)
    (ht : r.tenant_id ≠ tenant) :
    update_memory id tenant upd now s = (s, false) := by
  simp [update_memory, h, ht]

/-- C2 (amended): update_memory ignores the updates map entirely - the
result does not depend on it and no record field other than updated_at
is modified; when a record with the id exists and belongs to the tenant
it refreshes that record's updated_at and returns true, other keys are
untouched; otherwise it returns false and changes nothing.  (No update
key, known or unknown, ever causes an error: the call always returns
normally.) -/
theorem C2_update_semantics (id : Nat) (tenant : String)
    (upd : List (String × Json)) (now : Nat) (s : MemState) :
    update_memory id tenant upd now s = update_memory id tenant [] now s ∧
    ((update_memory id tenant upd now s).2 = true ↔
      ∃ r, s.lookup id = some r ∧ r.tenant_id = tenant) ∧
    (∀ r, s.lookup id = some r → r.tenant_id = tenant →
      (update_memory id tenant upd now s).1.lookup id =
        some { r with updated_at := now }) ∧
    (∀ j, j ≠ id →
      (update_memory id tenant upd now s).1.lookup j = s.lookup j) ∧
    ((update_memory id tenant upd now s).2 = false →
      (update_memory id tenant upd now s).1 = s) := by
  rcases hl : s.lookup id with - | r
  · rw [update_memory_none id tenant upd now s hl,
      update_memory_none id tenant [] now s hl]
    refine ⟨rfl, ?_, ?_, fun j hj => rfl, fun _ => rfl⟩
    · constructor
      · intro h
        exact absurd h (by simp)
      · rintro ⟨r, hr, -⟩
        cases hr
    · intro r hr
      cases hr
  · by_cases ht : r.tenant_id = tenant
    · rw [update_memory_pos id tenant upd now s r hl ht,
        update_memory_pos id tenant [] now s r hl ht]
      refine ⟨rfl, iff_of_true rfl ⟨r, rfl, ht⟩, ?_, ?_, ?_⟩
      · intro r' hr' ht'
        injection hr' with hr'
        subst hr'
        exact setFirst_lookup_self _ s r hl
      · intro j hj
        exact setFirst_lookup_ne _ j hj s
      · intro hfalse
        exact absurd hfalse (by simp)
    · rw [update_memory_neg id tenant upd now s r hl ht,
        update_memory_neg id tenant [] now s r hl ht]
      refine ⟨rfl, ?_, ?_, fun j hj => rfl, fun _ => rfl⟩
      · constructor
        · intro h
          exact absurd h (by simp)
        · rintro ⟨r', hr', ht'⟩
          injection hr' with hr'
          subst hr'
          exact absurd ht' ht
      · intro r' hr' ht'
        injection hr' with hr'
        subst hr'
        exact absurd ht' ht

/-- Witness for C2 at a concrete store: the updates map is nonempty yet
only updated_at changes and the call reports true. -/
theorem C2_update_semantics_witness :
    (update_memory 1 "t" [("content", Json.str "new")] 7
        [(1, mkRecord 1 "t" "a" "oldc" MemoryLayer.Working 0)]).1.lookup 1 =
      some { mkRecord 1 "t" "a" "oldc" MemoryLayer.Working 0 with
              updated_at := 7 } :=
  (C2_update_semantics 1 "t" [("content", Json.str "new")] 7
    [(1, mkRecord 1 "t" "a" "oldc" MemoryLayer.Working 0)]).2.2.1
    (mkRecord 1 "t" "a" "oldc" MemoryLayer.Working 0) rfl rfl

/-- The specification's single matching predicate: a record matches when
it satisfies the mandatory tenant filter and the optional agent and
layer filters. -/
def memMatches (tenant : String) (agent : Option String)
    (layer : Option MemoryLayer) (m : MemoryRecord) : Bool :=
  decide (m.tenant_id = tenant) && agentOk agent m && layerOk layer m

/-- Merging the three chained filters of list/count into one pass. -/
theorem filter3_eq (f1 f2 f3 : MemoryRecord → Bool) :
    ∀ l : List MemoryRecord,
      ((l.filter f1).filter f2).filter f3 =
        l.filter (fun m => f1 m && f2 m && f3 m) := by
  intro l
  rw [List.filter_filter, List.filter_filter]
  apply List.filter_congr
  intro m _
  cases f1 m <;> cases f2 m <;> cases f3 m <;> rfl

/-- 100 records for tenant t under agent a plus 10 under agent b, all in
layer Working. -/
def bigState : MemState :=
  (List.range 100).map
    (fun i => (i, mkRecord i "t" "a" "c" MemoryLayer.Working 0)) ++
  (List.range 10).map
    (fun i => (100 + i, mkRecord (100 + i) "t" "b" "c" MemoryLayer.Working 0))

/-- C9: count_memories equals the number of stored records matching all
the given filters, and list_memories returns exactly
min(limit, count - offset) records (Nat subtraction truncates at zero,
matching max(count - offset, 0)): the offset is applied to the filtered
collection before the limit.  In particular, with 100 matching records
(plus 10 non-matching ones), limit 20 and offset 90 return exactly 10
records while count reports 100. -/
theorem C9_list_count_pagination :
    (∀ (s : MemState) (tenant : String) (agent : Option String)
        (layer : Option MemoryLayer) (tags : Option (List String))
        (limit offset : Nat),
      count_memories tenant agent layer s =
        ((memValues s).filter (memMatches tenant agent layer)).length ∧
      (list_memories tenant agent layer tags limit offset s).length =
        min limit (count_memories tenant agent layer s - offset)) ∧
    (list_memories "t" (some "a") (some MemoryLayer.Working) none 20 90
        bigState).length = 10 ∧
    count_memories "t" (some "a") (some MemoryLayer.Working) bigState
      = 100 := by
  refine ⟨?_, by decide, by decide⟩
  intro s tenant agent layer tags limit offset
  constructor
  · rw [count_memories, filter3_eq]
    rfl
  · rw [list_memories, count_memories]
    simp [List.length_take, List.length_drop]

/-- Unfold equations for delete_memory, mirroring its three outcomes. -/
theorem delete_memory_none (id : Nat) (tenant : String) (s : MemState)
    (h : s.lookup id = none) : delete_memory id tenant s = (s, false) := by
  simp [delete_memory, h]

theorem delete_memory_pos (id : Nat) (tenant : String) (s : MemState)
    (r : MemoryRecord) (h : s.lookup id = some r)
    (ht : r.tenant_id = tenant) :
    delete_memory id tenant s =
      (s.eraseP (fun p => p.1 = id), true) := by
  simp [delete_memory, h, ht]

theorem delete_memory_neg (id : Nat) (tenant : String) (s : MemState)
    (r : MemoryRecord) (h : s.lookup id = some r)
    (ht : r.tenant_id ≠ tenant) :
    delete_memory id tenant s = (s, false) := by
  simp [delete_memory, h, ht]

/-- The states reachable from the empty store through the mutating
operations of the reference store.  get_memory, list_memories and
count_memories take the state by shared reference and return no state in
this embedding: reads cannot mutate by construction. -/
inductive Reachable : MemState → Prop where
  | init : Reachable []
  | store (s : MemState) (tenant agent content : String)
      (layer : MemoryLayer) (importance : Rat) (tags : List String)
      (metadata : List (String × Json)) (embedding : Option (List Rat))
      (expires_at : Option Nat) (id now : Nat) :
      Reachable s →
      Reachable (store_memory tenant agent content layer importance tags
        metadata embedding expires_at id now s).1
  | update (s : MemState) (id : Nat) (tenant : String)
      (upd : List (String × Json)) (now : Nat) :
      Reachable s → Reachable (update_memory id tenant upd now s).1
  | delete (s : MemState) (id : Nat) (tenant : String) :
      Reachable s → Reachable (delete_memory id tenant s).1
  | save (s : MemState) (id : Nat) (model : String) (emb : List Rat)
      (md : Option (List (String × Json))) :
      Reachable s → Reachable (save_embedding id model emb md s).1

/-- C10: in every reachable state of the reference store every stored
record has access_count = 0 and last_accessed_at = none: store_memory
initializes both fields that way and no operation ever modifies them
(update_memory only refreshes updated_at; reads return no state at
all). -/
theorem C10_no_access_tracking :
    ∀ s, Reachable s →
      ∀ p, p ∈ s → p.2.access_count = 0 ∧ p.2.last_accessed_at = none := by
  intro s h
  induction h with
  | init => intro p hp; cases hp
  | store s tenant agent content layer importance tags metadata embedding
      expires_at id now hs ih =>
      intro p hp
      simp only [store_memory] at hp
      rcases hmInsert_mem_cases id _ s p hp with h | h
      · exact ih p h
      · subst h
        exact ⟨rfl, rfl⟩
  | update s id tenant upd now hs ih =>
      intro p hp
      rcases hl : s.lookup id with - | r
      · rw [update_memory_none id tenant upd now s hl] at hp
        exact ih p hp
      · by_cases ht : r.tenant_id = tenant
        · rw [update_memory_pos id tenant upd now s r hl ht] at hp
          rcases setFirst_mem_cases id _ s p hp with h | h
          · exact ih p h
          · subst h
            have hr := ih (id, r) (lookup_mem hl)
            exact ⟨hr.1, hr.2⟩
        · rw [update_memory_neg id tenant upd now s r hl ht] at hp
          exact ih p hp
  | delete s id tenant hs ih =>
      intro p hp
      rcases hl : s.lookup id with - | r
      · rw [delete_memory_none id tenant s hl] at hp
        exact ih p hp
      · by_cases ht : r.tenant_id = tenant
        · rw [delete_memory_pos id tenant s r hl ht] at hp
          exact ih p ((s.eraseP_sublist).subset hp)
        · rw [delete_memory_neg id tenant s r hl ht] at hp
          exact ih p hp
  | save s id model emb md hs ih =>
      intro p hp
      exact ih p hp

/-- Witness for C10: the record freshly stored into the empty store has
access_count 0 and no last-access timestamp. -/
theorem C10_no_access_tracking_witness :
    (mkRecord 1 "t" "a" "c" MemoryLayer.Working 5).access_count = 0 ∧
    (mkRecord 1 "t" "a" "c" MemoryLayer.Working 5).last_accessed_at
      = none :=
  C10_no_access_tracking
    (store_memory "t" "a" "c" MemoryLayer.Working 1 [] [] none none 1 5
      []).1
    (Reachable.store [] "t" "a" "c" MemoryLayer.Working 1 [] [] none none
      1 5 Reachable.init)
    (1, mkRecord 1 "t" "a" "c" MemoryLayer.Working 5)
    (by simp [store_memory, hmInsert, mkRecord])

/-- Membership through a foldl whose step adds exactly the elements
described by a fixed predicate. -/
theorem foldl_mem_iff (step : Finset Nat → Edge → Finset Nat)
    (addsP : Edge → Nat → Prop)
    (hstep : ∀ acc e v, v ∈ step acc e ↔ v ∈ acc ∨ addsP e v) :
    ∀ (es : List Edge) (acc : Finset Nat) (v : Nat),
      v ∈ es.foldl step acc ↔ v ∈ acc ∨ ∃ e, e ∈ es ∧ addsP e v := by
  intro es
  induction es with
  | nil => intro acc v; simp
  | cons e t ih =>
      intro acc v
      rw [List.foldl_cons, ih, hstep]
      constructor
      · rintro ((hv | ha) | ⟨e', he', ha⟩)
        · exact Or.inl hv
        · exact Or.inr ⟨e, List.mem_cons_self _ _, ha⟩
        · exact Or.inr ⟨e', List.mem_cons_of_mem _ he', ha⟩
      · rintro (hv | ⟨e', he', ha⟩)
        · exact Or.inl (Or.inl hv)
        · rcases List.mem_cons.mp he' with rfl | he''
          · exact Or.inl (Or.inr ha)
          · exact Or.inr ⟨e', he'', ha⟩

theorem neighborStep_out (node : Nat) (ety : Option String)
    (acc : Finset Nat) (e : Edge) (v : Nat) :
    v ∈ neighborStep node ety "out" acc e ↔
      v ∈ acc ∨ (typeOk ety e = true ∧ e.source_id = node ∧
        v = e.target_id) := by
  unfold neighborStep
  by_cases hty : typeOk ety e = true
  · rw [if_pos hty, if_pos rfl]
    by_cases hs : e.source_id = node
    · rw [if_pos hs]
      simp only [Finset.mem_insert, hty, hs]
      tauto
    · rw [if_neg hs]
      tauto
  · rw [if_neg hty]
    tauto

theorem neighborStep_in (node : Nat) (ety : Option String)
    (acc : Finset Nat) (e : Edge) (v : Nat) :
    v ∈ neighborStep node ety "in" acc e ↔
      v ∈ acc ∨ (typeOk ety e = true ∧ e.target_id = node ∧
        v = e.source_id) := by
  unfold neighborStep
  by_cases hty : typeOk ety e = true
  · rw [if_pos hty, if_neg (by decide : ¬("in" : String) = "out"),
      if_pos rfl]
    by_cases hs : e.target_id = node
    · rw [if_pos hs]
      simp only [Finset.mem_insert, hty, hs]
      tauto
    · rw [if_neg hs]
      tauto
  · rw [if_neg hty]
    tauto

theorem neighborStep_other (node : Nat) (ety : Option String)
    (dir : String) (hdo : dir ≠ "out") (hdi : dir ≠ "in")
    (acc : Finset Nat) (e : Edge) (v : Nat) :
    v ∈ neighborStep node ety dir acc e ↔
      v ∈ acc ∨ (typeOk ety e = true ∧
        ((e.source_id = node ∧ v = e.target_id) ∨
         (e.source_id ≠ node ∧ e.target_id = node ∧
          v = e.source_id))) := by
  unfold neighborStep
  by_cases hty : typeOk ety e = true
  · rw [if_pos hty, if_neg hdo, if_neg hdi]
    by_cases hs : e.source_id = node
    · rw [if_pos hs]
      simp only [Finset.mem_insert, hty, hs]
      tauto
    · rw [if_neg hs]
      by_cases ht : e.target_id = node
      · rw [if_pos ht]
        simp only [Finset.mem_insert, hty, hs, ht]
        tauto
      · rw [if_neg ht]
        tauto
  · rw [if_neg hty]
    tauto

/-- C5: get_neighbors returns, as a deduplicated set over exactly the
tenant edges whose type matches the optional edge_type filter: the
targets of edges leaving node when direction is out; the sources of
edges entering node when direction is in; and for every other direction
value the opposite endpoint of every matching edge incident to node
(the scan tests the source endpoint first, which for a self-loop still
yields the opposite - equal - endpoint); and the result is identical
for every value of the ignored max_depth parameter. -/
theorem C5_get_neighbors (st : InMemoryGraphStore) (node : Nat)
    (tenant : String) (ety : Option String) (d : Nat) (v : Nat) :
    (v ∈ get_neighbors node tenant ety "out" d st ↔
      ∃ e, e ∈ st.edges tenant ∧ typeOk ety e = true ∧
        e.source_id = node ∧ v = e.target_id) ∧
    (v ∈ get_neighbors node tenant ety "in" d st ↔
      ∃ e, e ∈ st.edges tenant ∧ typeOk ety e = true ∧
        e.target_id = node ∧ v = e.source_id) ∧
    (∀ dir, dir ≠ "out" → dir ≠ "in" →
      (v ∈ get_neighbors node tenant ety dir d st ↔
        ∃ e, e ∈ st.edges tenant ∧ typeOk ety e = true ∧
          ((e.source_id = node ∧ v = e.target_id) ∨
           (e.target_id = node ∧ v = e.source_id)))) ∧
    (∀ dir d2, get_neighbors node tenant ety dir d st =
      get_neighbors node tenant ety dir d2 st) := by
  refine ⟨?_, ?_, ?_, fun dir d2 => rfl⟩
  · rw [get_neighbors,
      foldl_mem_iff _ _ (neighborStep_out node ety) (st.edges tenant) ∅ v]
    simp only [Finset.not_mem_empty, false_or]
  · rw [get_neighbors,
      foldl_mem_iff _ _ (neighborStep_in node ety) (st.edges tenant) ∅ v]
    simp only [Finset.not_mem_empty, false_or]
  · intro dir hdo hdi
    rw [get_neighbors,
      foldl_mem_iff _ _ (neighborStep_other node ety dir hdo hdi)
        (st.edges tenant) ∅ v]
    simp only [Finset.not_mem_empty, false_or]
    constructor
    · rintro ⟨e, he, h1, h2⟩
      refine ⟨e, he, h1, ?_⟩
      rcases h2 with ⟨hs, hv⟩ | ⟨hs, ht, hv⟩
      · exact Or.inl ⟨hs, hv⟩
      · exact Or.inr ⟨ht, hv⟩
    · rintro ⟨e, he, h1, h2⟩
      refine ⟨e, he, h1, ?_⟩
      rcases h2 with ⟨hs, hv⟩ | ⟨ht, hv⟩
      · exact Or.inl ⟨hs, hv⟩
      · by_cases hs : e.source_id = node
        · refine Or.inl ⟨hs, ?_⟩
          omega
        · exact Or.inr ⟨hs, ht, hv⟩

/-- An edge literal with unit weight and no properties. -/
def mkEdge (a b : Nat) (ty : String) : Edge :=
  { source_id := a, target_id := b, edge_type := ty, weight := 1,
    properties := [] }

/-- A 4-node chain 0-1-2-3 under tenant t (single edges, type L). -/
def chainEdges : List Edge := [mkEdge 0 1 "L", mkEdge 1 2 "L", mkEdge 2 3 "L"]

/-- Graph store holding only the chain edges of tenant t. -/
def chainSt : InMemoryGraphStore :=
  { nodes := fun _ _ => none,
    edges := fun t => if t = "t" then chainEdges else [] }

/-- Graph store with nodes 0, 1, 2 and edges 0-1 and 1-2 under tenant
t. -/
def gD : InMemoryGraphStore :=
  { nodes := fun t i =>
      if t = "t" ∧ i < 3 then
        some { id := i, node_type := "T", properties := [] }
      else none,
    edges := fun t => if t = "t" then [mkEdge 0 1 "L", mkEdge 1 2 "L"]
      else [] }

/-- Graph store with nodes 0, 1, 2 and the single edge 0-2 under tenant
t (an edge leaving the requested set {0, 1}). -/
def gInduced : InMemoryGraphStore :=
  { nodes := fun t i =>
      if t = "t" ∧ i < 3 then
        some { id := i, node_type := "T", properties := [] }
      else none,
    edges := fun t => if t = "t" then [mkEdge 0 2 "L"] else [] }

/-- C6: delete_node removes the node from the tenant partition when
present (returning whether it was removed), leaves every other node of
the tenant untouched, unconditionally removes every tenant edge incident
to the node (the edge characterization holds for every state, also when
the node does not exist), and never touches another tenant's nodes or
edges. -/
theorem C6_delete_node (st : InMemoryGraphStore) (node : Nat)
    (tenant : String) :
    (delete_node node tenant st).2 = (st.nodes tenant node).isSome ∧
    (delete_node node tenant st).1.nodes tenant node = none ∧
    (∀ i, i ≠ node →
      (delete_node node tenant st).1.nodes tenant i = st.nodes tenant i) ∧
    (∀ e, e ∈ (delete_node node tenant st).1.edges tenant ↔
      (e ∈ st.edges tenant ∧
        ¬(e.source_id = node ∨ e.target_id = node))) ∧
    (∀ t2, t2 ≠ tenant →
      (∀ i, (delete_node node tenant st).1.nodes t2 i = st.nodes t2 i) ∧
      (delete_node node tenant st).1.edges t2 = st.edges t2) := by
  refine ⟨rfl, ?_, ?_, ?_, ?_⟩
  · simp [delete_node]
  · intro i hi
    simp [delete_node, hi]
  · intro e
    simp only [delete_node, if_pos rfl, if_true]
    rw [List.mem_filter]
    simp only [Bool.and_eq_true, decide_eq_true_eq]
    tauto
  · intro t2 ht2
    constructor
    · intro i
      simp [delete_node, ht2]
    · simp [delete_node, ht2]

/-- Witness for C6 on a concrete three-node graph: deleting node 1
reports true, spares node 0, and spares another tenant's edge list. -/
theorem C6_delete_node_witness :
    (delete_node 1 "t" gD).1.nodes "t" 0 = gD.nodes "t" 0 ∧
    (delete_node 1 "t" gD).1.edges "u" = gD.edges "u" ∧
    (delete_node 1 "t" gD).2 = true :=
  ⟨(C6_delete_node gD 1 "t").2.2.1 0 (by decide),
   ((C6_delete_node gD 1 "t").2.2.2.2 "u" (by decide)).2,
   by rw [(C6_delete_node gD 1 "t").1]; rfl⟩

/-- C7: get_subgraph returns exactly the requested nodes that exist in
the tenant partition, in request order, silently dropping missing
identifiers; with include_edges it returns exactly the tenant edges
whose source and target both lie in the requested identifier set (an
induced subgraph - in the concrete instance the edge 0-2 is omitted for
the requested set {0, 1} although 0 is requested); with include_edges
false the edge list is empty. -/
theorem C7_get_subgraph (st : InMemoryGraphStore) (node_ids : List Nat)
    (tenant : String) :
    (∀ inc, (get_subgraph node_ids tenant inc st).1 =
      node_ids.filterMap (fun id => st.nodes tenant id)) ∧
    (∀ n, n ∈ (get_subgraph node_ids tenant true st).1 ↔
      ∃ id, id ∈ node_ids ∧ st.nodes tenant id = some n) ∧
    (∀ e, e ∈ (get_subgraph node_ids tenant true st).2 ↔
      (e ∈ st.edges tenant ∧ e.source_id ∈ node_ids ∧
        e.target_id ∈ node_ids)) ∧
    (get_subgraph node_ids tenant false st).2 = [] ∧
    (get_subgraph [0, 1] "t" true gInduced).2 = [] := by
  refine ⟨fun inc => rfl, ?_, ?_, rfl, rfl⟩
  · intro n
    simp [get_subgraph, List.mem_filterMap]
  · intro e
    simp only [get_subgraph, if_pos rfl, if_true]
    rw [List.mem_filter]
    simp only [Bool.and_eq_true, decide_eq_true_eq]

/-- The filtered list is strictly shorter exactly when some element was
dropped. -/
theorem filter_length_lt_iff (p : Edge → Bool) :
    ∀ l : List Edge,
      ((l.filter p).length < l.length ↔ ∃ e, e ∈ l ∧ p e = false) := by
  intro l
  induction l with
  | nil => simp
  | cons a t ih =>
      rcases hp : p a with - | -
      · rw [List.filter_cons, hp]
        rw [if_neg (by decide : ¬(false = true))]
        simp only [List.length_cons]
        constructor
        · intro h
          exact ⟨a, List.mem_cons_self _ _, hp⟩
        · intro h
          have := List.length_filter_le p t
          omega
      · rw [List.filter_cons, hp]
        rw [if_pos (rfl : true = true)]
        simp only [List.length_cons]
        rw [Nat.add_lt_add_iff_right, ih]
        constructor
        · rintro ⟨e, he, hpe⟩
          exact ⟨e, List.mem_cons_of_mem _ he, hpe⟩
        · rintro ⟨e, he, hpe⟩
          rcases List.mem_cons.mp he with rfl | he'
          · rw [hp] at hpe
            cases hpe
          · exact ⟨e, he', hpe⟩

/-- C8: delete_edge removes from the tenant edge collection exactly the
edges whose source_id, target_id and edge_type all equal the supplied
values (so duplicates go at once), returns true exactly when at least
one edge was removed, touches no other tenant and no nodes, and is not
direction-symmetric: an edge stored as source a, target b with a not
equal to b survives the call with the endpoints swapped. -/
theorem C8_delete_edge (st : InMemoryGraphStore) (a b : Nat)
    (ty : String) (tenant : String) :
    (∀ e, e ∈ (delete_edge a b ty tenant st).1.edges tenant ↔
      (e ∈ st.edges tenant ∧
        ¬(e.source_id = a ∧ e.target_id = b ∧ e.edge_type = ty))) ∧
    ((delete_edge a b ty tenant st).2 = true ↔
      ∃ e, e ∈ st.edges tenant ∧ e.source_id = a ∧ e.target_id = b ∧
        e.edge_type = ty) ∧
    (∀ t2, t2 ≠ tenant →
      (delete_edge a b ty tenant st).1.edges t2 = st.edges t2) ∧
    (∀ t2 i, (delete_edge a b ty tenant st).1.nodes t2 i =
      st.nodes t2 i) ∧
    (∀ e, e ∈ st.edges tenant → e.source_id = a → e.target_id = b →
      a ≠ b → e ∈ (delete_edge b a ty tenant st).1.edges tenant) := by
  refine ⟨?_, ?_, ?_, fun t2 i => rfl, ?_⟩
  · intro e
    simp only [delete_edge, if_pos rfl, if_true]
    rw [List.mem_filter]
    simp only [Bool.not_eq_true', edgeMatches, Bool.and_eq_false_iff,
      decide_eq_false_iff_not]
    tauto
  · simp only [delete_edge, decide_eq_true_eq]
    rw [filter_length_lt_iff]
    constructor
    · rintro ⟨e, he, hpe⟩
      rw [Bool.not_eq_false'] at hpe
      simp only [edgeMatches, Bool.and_eq_true, decide_eq_true_eq] at hpe
      exact ⟨e, he, hpe.1.1, hpe.1.2, hpe.2⟩
    · rintro ⟨e, he, h1, h2, h3⟩
      refine ⟨e, he, ?_⟩
      rw [Bool.not_eq_false']
      simp [edgeMatches, h1, h2, h3]
  · intro t2 ht2
    simp [delete_edge, ht2]
  · intro e he h1 h2 hab
    simp only [delete_edge, if_pos rfl, if_true]
    rw [List.mem_filter]
    refine ⟨he, ?_⟩
    rw [Bool.not_eq_true']
    simp only [edgeMatches, Bool.and_eq_false_iff,
      decide_eq_false_iff_not]
    left
    left
    rw [h1]
    exact hab

/-- Witness for C8: the edge 0 to 1 survives deleting 1 to 0 on the
chain state. -/
theorem C8_delete_edge_witness :
    mkEdge 0 1 "L" ∈ (delete_edge 1 0 "L" "t" chainSt).1.edges "t" :=
  (C8_delete_edge chainSt 0 1 "L" "t").2.2.2.2 (mkEdge 0 1 "L")
    (by simp [chainSt, chainEdges]) rfl rfl (by decide)

/-- C3 counterexample: on the chain 0-1-2(-3) with max_depth = 2 the
call shortest_path(0, 2) returns the path [0, 1, 2] of 3 nodes, which
exceeds max_depth: a dequeued path of exactly max_depth nodes is still
expanded, and the final step appending the target adds one more node, so
the claimed bound of max_depth nodes is violated. -/
theorem C3_counterexample :
    shortest_path 0 2 "t" 2 chainSt = some [0, 1, 2] ∧
    ¬ (([0, 1, 2] : List Nat).length ≤ 2) := by
  constructor
  · simp [shortest_path, chainSt, chainEdges, mkEdge, bfs, expand, nbr,
      List.getLast?]
  · decide

/-- C3 (amended): any path returned by shortest_path contains at most
max_depth + 1 node identifiers (at most max_depth edges): a candidate
path is abandoned once its node count exceeds max_depth, but a path of
exactly max_depth nodes is still expanded and the returned path appends
the target to it. -/
theorem C3_shortest_path_depth (st : InMemoryGraphStore)
    (source target : Nat) (tenant : String) (max_depth : Nat)
    (p : List Nat)
    (h : shortest_path source target tenant max_depth st = some p) :
    p.length ≤ max_depth + 1 := by
  unfold shortest_path at h
  by_cases hst : source = target
  · rw [if_pos hst] at h
    injection h with h
    rw [← h]
    simp
  · rw [if_neg hst] at h
    exact bfs_depth (st.edges tenant) target max_depth
      (1 + ((edgeNodes (st.edges tenant)) \ {source}).card)
      [[source]] {source} (by simp) p h

/-- Witness for C3 (amended) at the concrete chain instance. -/
theorem C3_shortest_path_depth_witness :
    (([0, 1, 2] : List Nat)).length ≤ 2 + 1 :=
  C3_shortest_path_depth chainSt 0 2 "t" 2 [0, 1, 2]
    (by simp [shortest_path, chainSt, chainEdges, mkEdge, bfs, expand,
      nbr, List.getLast?])

/-- C4: shortest_path correctness.  For source = target it returns the
single-element path immediately for every state (no edges consulted -
the equation holds for arbitrary edge collections).  For distinct
endpoints, any returned path starts at source, ends at target, its
consecutive elements are joined by tenant edges taken in either
orientation, and no strictly shorter such undirected walk exists.  On
the 4-node chain 0-1-2-3, shortest_path(0, 3, max_depth 5) returns
exactly [0, 1, 2, 3] and max_depth 2 yields no path. -/
theorem C4_shortest_path_correct (st : InMemoryGraphStore)
    (source target : Nat) (tenant : String) (max_depth : Nat) :
    shortest_path source source tenant max_depth st = some [source] ∧
    (source ≠ target →
      ∀ p, shortest_path source target tenant max_depth st = some p →
        p.head? = some source ∧ p.getLast? = some target ∧
        List.Chain' (AdjSpec (st.edges tenant)) p ∧
        (∀ w, w.head? = some source → w.getLast? = some target →
          List.Chain' (AdjSpec (st.edges tenant)) w →
          p.length ≤ w.length)) ∧
    shortest_path 0 3 "t" 5 chainSt = some [0, 1, 2, 3] ∧
    shortest_path 0 3 "t" 2 chainSt = none := by
  refine ⟨by simp [shortest_path], ?_, ?_, ?_⟩
  · intro hne p hp
    exact shortest_path_correct st source target tenant max_depth hne p hp
  · simp [shortest_path, chainSt, chainEdges, mkEdge, bfs, expand, nbr,
      List.getLast?]
  · simp [shortest_path, chainSt, chainEdges, mkEdge, bfs, expand, nbr,
      List.getLast?]

/-- Witness for C4: the distinct-endpoint part applied to the concrete
chain run. -/
theorem C4_shortest_path_correct_witness :
    (([0, 1, 2, 3] : List Nat)).head? = some 0 :=
  (((C4_shortest_path_correct chainSt 0 3 "t" 5).2.1 (by decide)
    [0, 1, 2, 3]
    (C4_shortest_path_correct chainSt 0 3 "t" 5).2.2.1)).1

/-- Witness for C5: the both direction on the chain state sees node 1
from node 0. -/
theorem C5_get_neighbors_witness :
    1 ∈ get_neighbors 0 "t" none "both" 1 chainSt ↔
      ∃ e, e ∈ chainSt.edges "t" ∧ typeOk none e = true ∧
        ((e.source_id = 0 ∧ 1 = e.target_id) ∨
         (e.target_id = 0 ∧ 1 = e.source_id)) :=
  (C5_get_neighbors chainSt 0 "t" none 1 1).2.2.1 "both" (by decide)
    (by decide)
